import Mathlib

/-!
Verification of the RESP (Redis Serialization Protocol) codec and connection
state machine of `lib/icingadb/redisconnection.hpp`.

The byte stream is modelled as a `List Char` (one `Char` per byte; all bytes
of interest are below 256).  Reading from the stream is modelled as a function
from the unread input to `Except RespErr (result × unread-rest)`:

* a blocking/failed socket read on a truncated stream is `RespErr.eof`;
* the `BadRedisType` / `BadRedisInt` exceptions of the source are
  `RespErr.badType` / `RespErr.badInt`;
* `ReadRESP` recurses in the `*` (array) case; the Lean embedding bounds the
  recursion depth with a fuel parameter and `RespErr.fuel` reports fuel
  exhaustion.  The development proves fuel `input.length + 1` always
  suffices, which is the termination argument of the source.
-/

set_option autoImplicit false

namespace RedisConnection

/-- An error response from the Redis server (`class RedisError`);
`m_Message` is the message the constructor stored. -/
structure RedisError where
  m_Message : List Char
deriving DecidableEq

/-- Accessor `RedisError::GetMessage`. -/
def RedisError.GetMessage (e : RedisError) : List Char :=
  e.m_Message

/-- Failure outcomes of the decode layer. -/
inductive RespErr where
  /-- The fuel bound of the embedding was exhausted (never happens for
  sufficient fuel, see `readRESP_fuel_sufficient`). -/
  | fuel
  /-- The stream ended before the read completed (the source would block or
  fail with an I/O error inside `asio::async_read`). -/
  | eof
  /-- Outcome of `throw BadRedisType(type)`: unknown type byte. -/
  | badType (type : Char)
  /-- Outcome of `throw BadRedisInt(std::move(buf))`: the line is not a parseable
  signed integer; carries the raw line bytes. -/
  | badInt (intStr : List Char)
deriving DecidableEq

/-- The decoded `Value`: null (`Value()`), string (simple or bulk), integer
(`(double)i` in the source; the claims only concern parse failures, so the
integer is kept exact), error object (`new RedisError(...)`) or array. -/
inductive RValue where
  | null
  | str (s : List Char)
  | num (i : Int)
  | err (e : RedisError)
  | arr (elems : List RValue)

/-- Model of `RedisConnection::ReadLine`: read bytes one at a time; once a `'\r'` is
seen, read (and discard) one more byte and return the collected line.
The `hint` parameter of the source only pre-reserves capacity and is omitted. -/
def readLine : List Char → Except RespErr (List Char × List Char)
  | [] => .error .eof
  | c :: rest =>
    if c = '\r' then
      match rest with
      | [] => .error .eof
      | _ :: rest2 => .ok ([], rest2)
    else
      match readLine rest with
      | .error e => .error e
      | .ok (line, rest2) => .ok (c :: line, rest2)

/-- Model of `asio::async_read` of exactly `n` bytes. -/
def readN : Nat → List Char → Except RespErr (List Char × List Char)
  | 0, input => .ok ([], input)
  | _ + 1, [] => .error .eof
  | n + 1, c :: rest =>
    match readN n rest with
    | .error e => .error e
    | .ok (l, r) => .ok (c :: l, r)

/-- Is `c` an ASCII decimal digit? -/
def isDigitCh (c : Char) : Bool :=
  decide ('0' ≤ c) && decide (c ≤ '9')

/-- Numeric value of a digit character. -/
def digitVal (c : Char) : Nat :=
  c.toNat - '0'.toNat

/-- Value of a most-significant-first digit string. -/
def digitsVal (l : List Char) : Nat :=
  l.foldl (fun a c => a * 10 + digitVal c) 0

/-- Largest value of the C++ `intmax_t` (64-bit). -/
def INT64_MAX : Nat := 9223372036854775807

/-- The unsigned-magnitude parse inside `boost::lexical_cast`: the whole
string must be one or more decimal digits. -/
def parseUIntRESP (l : List Char) : Option Nat :=
  if l ≠ [] ∧ l.all isDigitCh = true then some (digitsVal l) else none

/-- Model of `boost::lexical_cast<intmax_t>` on the raw line: an optional leading
sign (its signed-extraction path consumes `'+'` exactly like `'-'`), then one
or more decimal digits spanning the whole input, within the range of
`intmax_t`; anything else throws (here: `none`). -/
def parseIntRESP : List Char → Option Int
  | [] => none
  | c :: rest =>
    if c = '-' then
      match parseUIntRESP rest with
      | some m => if m ≤ INT64_MAX + 1 then some (-(m : Int)) else none
      | none => none
    else if c = '+' then
      match parseUIntRESP rest with
      | some m => if m ≤ INT64_MAX then some ((m : Int)) else none
      | none => none
    else
      match parseUIntRESP (c :: rest) with
      | some m => if m ≤ INT64_MAX then some ((m : Int)) else none
      | none => none

mutual

/-- Model of `RedisConnection::ReadRESP`, fuelled: read one type byte and dispatch.
`fuel` bounds the recursion depth of the embedding only; every `switch` arm
is translated from the source. -/
def readRESP : Nat → List Char → Except RespErr (RValue × List Char)
  | 0, _ => .error .fuel
  | fuel + 1, input =>
    match input with
    | [] => .error .eof
    | type :: afterType =>
      if type = '+' then
        match readLine afterType with
        | .error e => .error e
        | .ok (buf, rest) => .ok (.str buf, rest)
      else if type = '-' then
        match readLine afterType with
        | .error e => .error e
        | .ok (buf, rest) => .ok (.err ⟨buf⟩, rest)
      else if type = ':' then
        match readLine afterType with
        | .error e => .error e
        | .ok (buf, rest) =>
          match parseIntRESP buf with
          | none => .error (.badInt buf)
          | some i => .ok (.num i, rest)
      else if type = '$' then
        match readLine afterType with
        | .error e => .error e
        | .ok (buf, rest) =>
          match parseIntRESP buf with
          | none => .error (.badInt buf)
          | some i =>
            if i < 0 then
              .ok (.null, rest)
            else
              match readN i.toNat rest with
              | .error e => .error e
              | .ok (payload, rest2) =>
                match readN 2 rest2 with
                | .error e => .error e
                | .ok (_, rest3) => .ok (.str payload, rest3)
      else if type = '*' then
        match readLine afterType with
        | .error e => .error e
        | .ok (buf, rest) =>
          match parseIntRESP buf with
          | none => .error (.badInt buf)
          | some i =>
            match readListRESP fuel i.toNat rest with
            | .error e => .error e
            | .ok (elems, rest2) => .ok (.arr elems, rest2)
      else
        .error (.badType type)

/-- The `for (; i; --i) arr->Add(ReadRESP(stream, yc));` loop of the `*`
(array) arm: decode `n` values in sequence. -/
def readListRESP : Nat → Nat → List Char → Except RespErr (List RValue × List Char)
  | _, 0, input => .ok ([], input)
  | 0, _ + 1, _ => .error .fuel
  | fuel + 1, n + 1, input =>
    match readRESP fuel input with
    | .error e => .error e
    | .ok (v, rest) =>
      match readListRESP fuel n rest with
      | .error e => .error e
      | .ok (vs, rest2) => .ok (v :: vs, rest2)

end

/-- Decoder `ReadRESP` at its canonical fuel: `input.length + 1` recursion depth is
always sufficient (`readRESP_fuel_sufficient`). -/
def ReadRESP (input : List Char) : Except RespErr (RValue × List Char) :=
  readRESP (input.length + 1) input

/-- The array-element loop at its canonical fuel. -/
def ReadRESPList (n : Nat) (input : List Char) : Except RespErr (List RValue × List Char) :=
  readListRESP (input.length + 2) n input

/-- The decimal digits the C++ `std::ostream` insertion of an unsigned
integer produces, accumulator/fuel style; fuel `n` itself always suffices. -/
def natToDecAux : Nat → Nat → List Char → List Char
  | 0, _, acc => acc
  | fuel + 1, n, acc =>
    if n = 0 then acc
    else natToDecAux fuel (n / 10) (Char.ofNat (48 + n % 10) :: acc)

/-- Decimal rendering of `n` (what `msg << query.size()` and
`msg << arg.GetLength()` write). -/
def natToDec (n : Nat) : List Char :=
  if n = 0 then ['0'] else natToDecAux n n []

/-- The bytes `msg << "$" << arg.GetLength() << "\r\n" << arg << "\r\n"`
appends for one argument. -/
def encodeBulk (arg : List Char) : List Char :=
  '$' :: (natToDec arg.length ++ '\r' :: '\n' :: (arg ++ ['\r', '\n']))

/-- Model of `RedisConnection::WriteRESP`: `msg << "*" << query.size() << "\r\n"`,
then each argument in order, appended into one write buffer. -/
def WriteRESP (query : List (List Char)) : List Char :=
  query.foldl (fun buf arg => buf ++ encodeBulk arg)
    ('*' :: (natToDec query.length ++ ['\r', '\n']))

/-- The sequence of bytes a NUL-terminated `const char *` returned by a
`what()` override denotes: the stored bytes up to (and excluding) the first
`'\x00'`. -/
def cString (l : List Char) : List Char :=
  l.takeWhile (fun c => c != '\x00')

/-- Model of `class BadRedisType`: `m_What` holds the bytes stored before the
terminating 0 of the `m_What{type, 0}` array; `what()` reads the array as a
NUL-terminated string. -/
structure BadRedisType where
  m_What : List Char
deriving DecidableEq

/-- The `BadRedisType(char type)` constructor. -/
def BadRedisType.ofChar (type : Char) : BadRedisType :=
  ⟨[type]⟩

/-- Accessor `BadRedisType::what()`: the stored bytes read as a NUL-terminated
C string (empty if the offending byte itself is `'\x00'`). -/
def BadRedisType.what (e : BadRedisType) : List Char :=
  cString e.m_What

/-- Model of `class BadRedisInt`: `m_What` holds the raw bytes that failed to parse
(the trailing 0 added by `emplace_back` is the C-string terminator). -/
structure BadRedisInt where
  m_What : List Char
deriving DecidableEq

/-- The `BadRedisInt(std::vector<char> intStr)` constructor. -/
def BadRedisInt.ofBytes (intStr : List Char) : BadRedisInt :=
  ⟨intStr⟩

/-- Accessor `BadRedisInt::what()`: the stored bytes read as a NUL-terminated
C string, so an interior `'\x00'` in the raw line truncates the message. -/
def BadRedisInt.what (e : BadRedisInt) : List Char :=
  cString e.m_What

/-- A connected stream: unread socket input and buffered output. -/
structure RespStream where
  input : List Char
  output : List Char
deriving DecidableEq

/-- Exceptions escaping `ReadOne`/`WriteOne`. -/
inductive RedisExc where
  /-- Outcome of `throw RedisDisconnected()`. -/
  | disconnected
  /-- A decode failure propagating out of `ReadRESP` (protocol or I/O). -/
  | respFailure (e : RespErr)
deriving DecidableEq

/-- The fields of `RedisConnection` the `ReadOne`/`WriteOne` templates touch,
plus the sizes of the four queues of `m_Queues` (whose contents the two
functions never inspect). -/
structure ConnectionState where
  stream : Option RespStream
  m_Connecting : Bool
  m_Connected : Bool
  writesCount : Nat
  replyPromisesCount : Nat
  repliesPromisesCount : Nat
  futureResponseActionsCount : Nat
deriving DecidableEq

/-- Model of `RedisConnection::ReadOne(StreamPtr&, yc)`: a null stream handle throws
`RedisDisconnected` at once; otherwise decode one reply, and on any decode
failure run the `m_Connecting.exchange` dance (reset flags, drop the stream;
the spawned `Connect` coroutine is outside this sequential model) and
rethrow. -/
def ReadOne (st : ConnectionState) : Except RedisExc RValue × ConnectionState :=
  match st.stream with
  | none => (.error .disconnected, st)
  | some s =>
    match readRESP (s.input.length + 1) s.input with
    | .ok (v, rest) => (.ok v, { st with stream := some { s with input := rest } })
    | .error e =>
      (.error (.respFailure e),
        if st.m_Connecting then
          { st with m_Connecting := true, m_Connected := false, stream := none }
        else st)

/-- Model of `RedisConnection::WriteOne(StreamPtr&, query, yc)`: a null stream handle
throws `RedisDisconnected` at once; otherwise `WriteRESP` the query into the
buffer and flush (appending to the stream's output; buffer writes cannot
fail in this model, so the catch block is unreachable). -/
def WriteOne (st : ConnectionState) (query : List (List Char)) :
    Except RedisExc Unit × ConnectionState :=
  match st.stream with
  | none => (.error .disconnected, st)
  | some s =>
    (.ok (), { st with stream := some { s with output := s.output ++ WriteRESP query } })

end RedisConnection
namespace RedisConnection

theorem readLine_sound : ∀ {input l rest : List Char},
    readLine input = .ok (l, rest) → '\r' ∉ l ∧ ∃ b, input = l ++ '\r' :: b :: rest := by
  intro input
  induction input with
  | nil => intro l rest h; simp [readLine] at h
  | cons c tl ih =>
    intro l rest h
    by_cases hc : c = '\r'
    · subst hc
      simp only [readLine, if_pos rfl] at h
      cases tl with
      | nil => exact absurd h (by simp)
      | cons b rest2 =>
        obtain ⟨rfl, rfl⟩ : l = [] ∧ rest2 = rest := by
          simpa using h
        exact ⟨by simp, b, rfl⟩
    · simp only [readLine, if_neg hc] at h
      cases hl : readLine tl with
      | error e => rw [hl] at h; exact absurd h (by simp)
      | ok p =>
        obtain ⟨line, rest2⟩ := p
        rw [hl] at h
        obtain ⟨rfl, rfl⟩ : l = c :: line ∧ rest = rest2 := by
          simpa using h.symm
        obtain ⟨hnr, b, rfl⟩ := ih hl
        refine ⟨?_, b, rfl⟩
        simp only [List.mem_cons, not_or]
        exact ⟨fun hh => hc hh.symm, hnr⟩

theorem readLine_complete : ∀ (l : List Char) (b : Char) (rest : List Char),
    '\r' ∉ l → readLine (l ++ '\r' :: b :: rest) = .ok (l, rest) := by
  intro l
  induction l with
  | nil => intro b rest _; simp [readLine]
  | cons c tl ih =>
    intro b rest hn
    have hc : c ≠ '\r' := fun h => hn (h ▸ List.mem_cons_self c tl)
    have htl : '\r' ∉ tl := fun h => hn (List.mem_cons_of_mem c h)
    rw [List.cons_append]
    simp only [readLine, if_neg hc]
    rw [ih b rest htl]

theorem readLine_length {input l rest : List Char}
    (h : readLine input = .ok (l, rest)) : input.length = l.length + rest.length + 2 := by
  obtain ⟨-, b, rfl⟩ := readLine_sound h
  simp [List.length_append]
  omega

theorem readLine_ne_fuel : ∀ {input : List Char} {e : RespErr},
    readLine input = .error e → e = .eof := by
  intro input
  induction input with
  | nil => intro e h; simpa [readLine] using h.symm
  | cons c tl ih =>
    intro e h
    by_cases hc : c = '\r'
    · subst hc
      simp only [readLine, if_pos rfl] at h
      cases tl with
      | nil => simpa using h.symm
      | cons b rest2 => exact absurd h (by simp)
    · simp only [readLine, if_neg hc] at h
      cases hl : readLine tl with
      | error e' =>
        rw [hl] at h
        obtain rfl : e' = e := by simpa using h
        exact ih hl
      | ok p => obtain ⟨line, rest2⟩ := p; rw [hl] at h; exact absurd h (by simp)

theorem readN_sound : ∀ {n : Nat} {input l rest : List Char},
    readN n input = .ok (l, rest) → l.length = n ∧ input = l ++ rest := by
  intro n
  induction n with
  | zero =>
    intro input l rest h
    obtain ⟨rfl, rfl⟩ : l = [] ∧ input = rest := by simpa [readN] using h
    simp
  | succ m ih =>
    intro input l rest h
    cases input with
    | nil => exact absurd h (by simp [readN])
    | cons c tl =>
      simp only [readN] at h
      cases hr : readN m tl with
      | error e => rw [hr] at h; exact absurd h (by simp)
      | ok p =>
        obtain ⟨l2, r2⟩ := p
        rw [hr] at h
        obtain ⟨rfl, rfl⟩ : l = c :: l2 ∧ rest = r2 := by simpa using h.symm
        obtain ⟨hlen, rfl⟩ := ih hr
        simp [hlen]

theorem readN_complete : ∀ (l rest : List Char),
    readN l.length (l ++ rest) = .ok (l, rest) := by
  intro l
  induction l with
  | nil => intro rest; simp [readN]
  | cons c tl ih =>
    intro rest
    rw [List.cons_append, List.length_cons]
    simp only [readN]
    rw [ih rest]

theorem readN_ne_fuel : ∀ {n : Nat} {input : List Char} {e : RespErr},
    readN n input = .error e → e = .eof := by
  intro n
  induction n with
  | zero => intro input e h; exact absurd h (by simp [readN])
  | succ m ih =>
    intro input e h
    cases input with
    | nil => simpa [readN] using h.symm
    | cons c tl =>
      simp only [readN] at h
      cases hr : readN m tl with
      | error e' =>
        rw [hr] at h
        obtain rfl : e' = e := by simpa using h
        exact ih hr
      | ok p => obtain ⟨l2, r2⟩ := p; rw [hr] at h; exact absurd h (by simp)

end RedisConnection
namespace RedisConnection

theorem digitVal_isDigit_ofNat : ∀ d : Nat, d < 10 →
    isDigitCh (Char.ofNat (48 + d)) = true ∧ digitVal (Char.ofNat (48 + d)) = d := by
  intro d hd
  interval_cases d <;> exact ⟨by decide, by decide⟩

theorem isDigitCh_ne {c : Char} (h : isDigitCh c = true) :
    c ≠ '\r' ∧ c ≠ '-' ∧ c ≠ '+' := by
  refine ⟨?_, ?_, ?_⟩ <;> rintro rfl <;> exact absurd h (by decide)

theorem cString_eq_self : ∀ {l : List Char}, '\x00' ∉ l → cString l = l := by
  intro l
  induction l with
  | nil => intro _; rfl
  | cons c tl ih =>
    intro h
    have hc : c ≠ '\x00' := fun hh => h (hh ▸ List.mem_cons_self c tl)
    have htl : '\x00' ∉ tl := fun hh => h (List.mem_cons_of_mem c hh)
    have ihtl := ih htl
    simp only [cString, List.takeWhile_cons] at ihtl ⊢
    simp [hc, ihtl]

theorem digitsVal_snoc (l : List Char) (c : Char) :
    digitsVal (l ++ [c]) = digitsVal l * 10 + digitVal c := by
  simp [digitsVal, List.foldl_append]

theorem natToDecAux_spec : ∀ (fuel n : Nat) (acc : List Char), n < 10 ^ fuel →
    (n = 0 ∧ natToDecAux fuel n acc = acc) ∨
    ∃ pre, natToDecAux fuel n acc = pre ++ acc ∧ pre ≠ [] ∧
      (∀ c ∈ pre, isDigitCh c = true) ∧ digitsVal pre = n := by
  intro fuel
  induction fuel with
  | zero =>
    intro n acc h
    have hn : n = 0 := by simpa using Nat.lt_one_iff.mp (by simpa using h)
    exact Or.inl ⟨hn, rfl⟩
  | succ f ih =>
    intro n acc h
    by_cases hn : n = 0
    · exact Or.inl ⟨hn, by simp [natToDecAux, hn]⟩
    · right
      have hdiv : n / 10 < 10 ^ f := by
        rw [Nat.div_lt_iff_lt_mul (by norm_num)]
        calc n < 10 ^ (f + 1) := h
        _ = 10 ^ f * 10 := by ring
      have hmod : n % 10 < 10 := Nat.mod_lt _ (by norm_num)
      obtain ⟨hdig1, hval1⟩ := digitVal_isDigit_ofNat (n % 10) hmod
      have hunf : natToDecAux (f + 1) n acc
          = natToDecAux f (n / 10) (Char.ofNat (48 + n % 10) :: acc) := by
        simp [natToDecAux, hn]
      rcases ih (n / 10) (Char.ofNat (48 + n % 10) :: acc) hdiv with ⟨hz, heq⟩ | hpre
      · refine ⟨[Char.ofNat (48 + n % 10)], ?_, by simp, ?_, ?_⟩
        · rw [hunf, heq]; rfl
        · intro c hc
          obtain rfl : c = Char.ofNat (48 + n % 10) := by simpa using hc
          exact hdig1
        · have := Nat.div_add_mod n 10
          simp only [digitsVal, List.foldl_cons, List.foldl_nil, Nat.zero_mul, Nat.zero_add]
          omega
      · obtain ⟨pre, heq, hne, hdigs, hval⟩ := hpre
        refine ⟨pre ++ [Char.ofNat (48 + n % 10)], ?_, by simp, ?_, ?_⟩
        · rw [hunf, heq, List.append_assoc, List.singleton_append]
        · intro c hc
          rcases List.mem_append.mp hc with hc | hc
          · exact hdigs c hc
          · obtain rfl : c = Char.ofNat (48 + n % 10) := by simpa using hc
            exact hdig1
        · rw [digitsVal_snoc, hval, hval1]
          have := Nat.div_add_mod n 10
          omega

theorem natToDec_spec (n : Nat) : natToDec n ≠ [] ∧
    (∀ c ∈ natToDec n, isDigitCh c = true) ∧ digitsVal (natToDec n) = n := by
  by_cases hn : n = 0
  · subst hn
    refine ⟨by decide, ?_, by decide⟩
    intro c hc
    obtain rfl : c = '0' := by simpa [natToDec] using hc
    decide
  · have hlt : n < 10 ^ n := Nat.lt_pow_self (by norm_num) n
    rcases natToDecAux_spec n n [] hlt with ⟨hz, -⟩ | ⟨pre, heq, hne, hdigs, hval⟩
    · exact absurd hz hn
    · have hd : natToDec n = pre := by
        rw [natToDec, if_neg hn, heq, List.append_nil]
      rw [hd]
      exact ⟨hne, hdigs, hval⟩

theorem cr_not_mem_natToDec (n : Nat) : '\r' ∉ natToDec n := by
  intro h
  exact (isDigitCh_ne ((natToDec_spec n).2.1 _ h)).1 rfl

theorem parseUInt_natToDec (n : Nat) : parseUIntRESP (natToDec n) = some n := by
  obtain ⟨hne, hdigs, hval⟩ := natToDec_spec n
  rw [parseUIntRESP, if_pos ⟨hne, List.all_eq_true.mpr hdigs⟩, hval]

theorem parseIntRESP_natToDec {n : Nat} (h : n ≤ INT64_MAX) :
    parseIntRESP (natToDec n) = some ((n : Int)) := by
  obtain ⟨hne, hdigs, hval⟩ := natToDec_spec n
  obtain ⟨c, cs, hcons⟩ := List.exists_cons_of_ne_nil hne
  have hc : isDigitCh c = true := hdigs c (by rw [hcons]; exact List.mem_cons_self c cs)
  have hcm : c ≠ '-' := (isDigitCh_ne hc).2.1
  have hcp : c ≠ '+' := (isDigitCh_ne hc).2.2
  rw [hcons, parseIntRESP, if_neg hcm, if_neg hcp, ← hcons, parseUInt_natToDec]
  simp [h]

theorem parseIntRESP_neg_natToDec {m : Nat} (h : m ≤ INT64_MAX + 1) :
    parseIntRESP ('-' :: natToDec m) = some (-(m : Int)) := by
  rw [parseIntRESP, if_pos rfl, parseUInt_natToDec]
  simp [h]

end RedisConnection
namespace RedisConnection

theorem readRESP_mono : ∀ fuel : Nat,
    (∀ input r, readRESP fuel input = r → r ≠ .error .fuel →
      readRESP (fuel + 1) input = r) ∧
    (∀ n input r, readListRESP fuel n input = r → r ≠ .error .fuel →
      readListRESP (fuel + 1) n input = r) := by
  intro fuel
  induction fuel with
  | zero =>
    constructor
    · intro input r h hr
      exact absurd h.symm (by simpa [readRESP] using hr)
    · intro n input r h hr
      cases n with
      | zero => rw [← h]; rfl
      | succ m => exact absurd h.symm (by simpa [readListRESP] using hr)
  | succ f ih =>
    obtain ⟨ihR, ihL⟩ := ih
    constructor
    · intro input r h hr
      cases input with
      | nil => rw [← h]; rfl
      | cons type afterType =>
        by_cases h1 : type = '+'
        · subst h1; rw [← h]; rfl
        · by_cases h2 : type = '-'
          · subst h2; rw [← h]; rfl
          · by_cases h3 : type = ':'
            · subst h3; rw [← h]; rfl
            · by_cases h4 : type = '$'
              · subst h4; rw [← h]; rfl
              · by_cases h5 : type = '*'
                · subst h5
                  simp only [readRESP, ↓reduceIte] at h ⊢
                  cases hL : readLine afterType with
                  | error e => simp only [hL] at h ⊢; exact h
                  | ok p =>
                    obtain ⟨buf, rest⟩ := p
                    simp only [hL] at h ⊢
                    cases hP : parseIntRESP buf with
                    | none => simp only [hP] at h ⊢; exact h
                    | some i =>
                      simp only [hP] at h ⊢
                      cases hRL : readListRESP f i.toNat rest with
                      | error e =>
                        simp only [hRL] at h
                        have he : e ≠ RespErr.fuel := by
                          rintro rfl; exact hr h.symm
                        simp only [ihL i.toNat rest (.error e) hRL (by simpa using he)]
                        exact h
                      | ok q =>
                        obtain ⟨elems, rest2⟩ := q
                        simp only [hRL] at h
                        simp only [ihL i.toNat rest (.ok (elems, rest2)) hRL (by simp)]
                        exact h
                · simp only [readRESP, if_neg h1, if_neg h2, if_neg h3, if_neg h4,
                    if_neg h5] at h ⊢
                  exact h
    · intro n input r h hr
      cases n with
      | zero => rw [← h]; rfl
      | succ m =>
        simp only [readListRESP] at h ⊢
        cases hR : readRESP f input with
        | error e =>
          simp only [hR] at h
          have he : e ≠ RespErr.fuel := by
            rintro rfl; exact hr h.symm
          simp only [ihR input (.error e) hR (by simpa using he)]
          exact h
        | ok p =>
          obtain ⟨v, rest⟩ := p
          simp only [hR] at h
          simp only [ihR input (.ok (v, rest)) hR (by simp)]
          cases hRL : readListRESP f m rest with
          | error e =>
            simp only [hRL] at h
            have he : e ≠ RespErr.fuel := by
              rintro rfl; exact hr h.symm
            simp only [ihL m rest (.error e) hRL (by simpa using he)]
            exact h
          | ok q =>
            obtain ⟨vs, rest2⟩ := q
            simp only [hRL] at h
            simp only [ihL m rest (.ok (vs, rest2)) hRL (by simp)]
            exact h

end RedisConnection
namespace RedisConnection

theorem readRESP_mono_le {fuel fuel' : Nat} (hle : fuel ≤ fuel') :
    (∀ input r, readRESP fuel input = r → r ≠ .error .fuel →
      readRESP fuel' input = r) ∧
    (∀ n input r, readListRESP fuel n input = r → r ≠ .error .fuel →
      readListRESP fuel' n input = r) := by
  obtain ⟨d, rfl⟩ := Nat.exists_eq_add_of_le hle
  clear hle
  induction d with
  | zero => exact ⟨fun _ _ h _ => h, fun _ _ _ h _ => h⟩
  | succ k ih =>
    obtain ⟨ihR, ihL⟩ := ih
    constructor
    · intro input r h hr
      exact (readRESP_mono (fuel + k)).1 input r (ihR input r h hr) hr
    · intro n input r h hr
      exact (readRESP_mono (fuel + k)).2 n input r (ihL n input r h hr) hr

theorem readRESP_suff : ∀ fuel : Nat,
    (∀ input : List Char, input.length < fuel →
      readRESP fuel input ≠ .error .fuel ∧
      ∀ v rest, readRESP fuel input = .ok (v, rest) → rest.length < input.length) ∧
    (∀ (n : Nat) (input : List Char), input.length + 1 < fuel →
      readListRESP fuel n input ≠ .error .fuel ∧
      ∀ vs rest, readListRESP fuel n input = .ok (vs, rest) → rest.length ≤ input.length) := by
  intro fuel
  induction fuel with
  | zero =>
    exact ⟨fun input h => absurd h (by omega), fun n input h => absurd h (by omega)⟩
  | succ f ih =>
    obtain ⟨ihR, ihL⟩ := ih
    constructor
    · intro input hlen
      cases input with
      | nil =>
        exact ⟨by simp [readRESP], fun v rest h => by simp [readRESP] at h⟩
      | cons type afterType =>
        have hAT : afterType.length < f + 1 := by
          have : (type :: afterType).length = afterType.length + 1 := rfl
          omega
        by_cases h1 : type = '+'
        · subst h1
          simp only [readRESP, ↓reduceIte]
          cases hL : readLine afterType with
          | error e =>
            simp only [hL]
            have he := readLine_ne_fuel hL
            exact ⟨by simp [he], fun v rest h => by simp at h⟩
          | ok p =>
            obtain ⟨buf, rest⟩ := p
            simp only [hL]
            have hLL := readLine_length hL
            refine ⟨by simp, fun v rest' h => ?_⟩
            obtain ⟨rfl, rfl⟩ : RValue.str buf = v ∧ rest = rest' := by simpa using h
            simp only [List.length_cons]
            omega
        · by_cases h2 : type = '-'
          · subst h2
            simp only [readRESP, ↓reduceIte]
            cases hL : readLine afterType with
            | error e =>
              simp only [hL]
              have he := readLine_ne_fuel hL
              exact ⟨by simp [he], fun v rest h => by simp at h⟩
            | ok p =>
              obtain ⟨buf, rest⟩ := p
              simp only [hL]
              have hLL := readLine_length hL
              refine ⟨by simp, fun v rest' h => ?_⟩
              obtain ⟨rfl, rfl⟩ : RValue.err ⟨buf⟩ = v ∧ rest = rest' := by simpa using h
              simp only [List.length_cons]
              omega
          · by_cases h3 : type = ':'
            · subst h3
              simp only [readRESP, ↓reduceIte]
              cases hL : readLine afterType with
              | error e =>
                simp only [hL]
                have he := readLine_ne_fuel hL
                exact ⟨by simp [he], fun v rest h => by simp at h⟩
              | ok p =>
                obtain ⟨buf, rest⟩ := p
                simp only [hL]
                have hLL := readLine_length hL
                cases hP : parseIntRESP buf with
                | none =>
                  simp only [hP]
                  exact ⟨by simp, fun v rest h => by simp at h⟩
                | some i =>
                  simp only [hP]
                  refine ⟨by simp, fun v rest' h => ?_⟩
                  obtain ⟨rfl, rfl⟩ : RValue.num i = v ∧ rest = rest' := by simpa using h
                  simp only [List.length_cons]
                  omega
            · by_cases h4 : type = '$'
              · subst h4
                simp only [readRESP, ↓reduceIte]
                cases hL : readLine afterType with
                | error e =>
                  simp only [hL]
                  have he := readLine_ne_fuel hL
                  exact ⟨by simp [he], fun v rest h => by simp at h⟩
                | ok p =>
                  obtain ⟨buf, rest⟩ := p
                  simp only [hL]
                  have hLL := readLine_length hL
                  cases hP : parseIntRESP buf with
                  | none =>
                    simp only [hP]
                    exact ⟨by simp, fun v rest h => by simp at h⟩
                  | some i =>
                    simp only [hP]
                    by_cases hi : i < 0
                    · simp only [if_pos hi]
                      refine ⟨by simp, fun v rest' h => ?_⟩
                      obtain ⟨rfl, rfl⟩ : RValue.null = v ∧ rest = rest' := by simpa using h
                      simp only [List.length_cons]
                      omega
                    · simp only [if_neg hi]
                      cases hN : readN i.toNat rest with
                      | error e =>
                        simp only [hN]
                        have he := readN_ne_fuel hN
                        exact ⟨by simp [he], fun v rest h => by simp at h⟩
                      | ok q =>
                        obtain ⟨payload, rest2⟩ := q
                        simp only [hN]
                        obtain ⟨hplen, rfl⟩ := readN_sound hN
                        cases hN2 : readN 2 rest2 with
                        | error e =>
                          simp only [hN2]
                          have he := readN_ne_fuel hN2
                          exact ⟨by simp [he], fun v rest h => by simp at h⟩
                        | ok q2 =>
                          obtain ⟨crlf, rest3⟩ := q2
                          simp only [hN2]
                          obtain ⟨hclen, rfl⟩ := readN_sound hN2
                          refine ⟨by simp, fun v rest' h => ?_⟩
                          obtain ⟨rfl, rfl⟩ : RValue.str payload = v ∧ rest3 = rest' := by
                            simpa using h
                          simp only [List.length_cons]
                          simp only [List.length_append] at hLL
                          omega
              · by_cases h5 : type = '*'
                · subst h5
                  simp only [readRESP, ↓reduceIte]
                  cases hL : readLine afterType with
                  | error e =>
                    simp only [hL]
                    have he := readLine_ne_fuel hL
                    exact ⟨by simp [he], fun v rest h => by simp at h⟩
                  | ok p =>
                    obtain ⟨buf, rest⟩ := p
                    simp only [hL]
                    have hLL := readLine_length hL
                    cases hP : parseIntRESP buf with
                    | none =>
                      simp only [hP]
                      exact ⟨by simp, fun v rest h => by simp at h⟩
                    | some i =>
                      simp only [hP]
                      have hrest : rest.length + 1 < f := by omega
                      obtain ⟨hnf, hcons⟩ := ihL i.toNat rest hrest
                      cases hRL : readListRESP f i.toNat rest with
                      | error e =>
                        simp only [hRL]
                        have he : e ≠ RespErr.fuel := by
                          rintro rfl; exact hnf hRL
                        exact ⟨by simp [he], fun v rest' h => by simp at h⟩
                      | ok q =>
                        obtain ⟨elems, rest2⟩ := q
                        simp only [hRL]
                        have hr2 := hcons elems rest2 hRL
                        refine ⟨by simp, fun v rest' h => ?_⟩
                        obtain ⟨rfl, rfl⟩ : RValue.arr elems = v ∧ rest2 = rest' := by
                          simpa using h
                        simp only [List.length_cons]
                        omega
                · simp only [readRESP, if_neg h1, if_neg h2, if_neg h3, if_neg h4, if_neg h5]
                  exact ⟨by simp, fun v rest h => by simp at h⟩
    · intro n input hlen
      cases n with
      | zero =>
        constructor
        · simp [readListRESP]
        · intro vs rest h
          simp only [readListRESP] at h
          obtain ⟨rfl, rfl⟩ : ([] : List RValue) = vs ∧ input = rest := by simpa using h
          exact le_refl _
      | succ m =>
        have hin : input.length < f := by omega
        obtain ⟨hnfR, hconsR⟩ := ihR input hin
        simp only [readListRESP]
        cases hR : readRESP f input with
        | error e =>
          simp only [hR]
          have he : e ≠ RespErr.fuel := by rintro rfl; exact hnfR hR
          exact ⟨by simp [he], fun vs rest h => by simp at h⟩
        | ok p =>
          obtain ⟨v, rest⟩ := p
          simp only [hR]
          have hv := hconsR v rest hR
          have hrest : rest.length + 1 < f := by omega
          obtain ⟨hnfL, hconsL⟩ := ihL m rest hrest
          cases hRL : readListRESP f m rest with
          | error e =>
            simp only [hRL]
            have he : e ≠ RespErr.fuel := by rintro rfl; exact hnfL hRL
            exact ⟨by simp [he], fun vs rest' h => by simp at h⟩
          | ok q =>
            obtain ⟨vs, rest2⟩ := q
            simp only [hRL]
            have hr2 := hconsL vs rest2 hRL
            refine ⟨by simp, fun vs' rest' h => ?_⟩
            obtain ⟨rfl, rfl⟩ : v :: vs = vs' ∧ rest2 = rest' := by simpa using h
            omega

theorem readRESP_fuel_sufficient {fuel : Nat} {input : List Char}
    (h : input.length < fuel) :
    readRESP fuel input = ReadRESP input ∧ readRESP fuel input ≠ .error .fuel := by
  have hnf := ((readRESP_suff (input.length + 1)).1 input (by omega)).1
  have hst := (readRESP_mono_le (show input.length + 1 ≤ fuel by omega)).1 input
    (readRESP (input.length + 1) input) rfl hnf
  rw [ReadRESP, hst]
  exact ⟨rfl, hnf⟩

theorem readListRESP_fuel_sufficient {fuel n : Nat} {input : List Char}
    (h : input.length + 1 < fuel) :
    readListRESP fuel n input = ReadRESPList n input ∧
    readListRESP fuel n input ≠ .error .fuel := by
  have hnf := ((readRESP_suff (input.length + 2)).2 n input (by omega)).1
  have hst := (readRESP_mono_le (show input.length + 2 ≤ fuel by omega)).2 n input
    (readListRESP (input.length + 2) n input) rfl hnf
  rw [ReadRESPList, hst]
  exact ⟨rfl, hnf⟩

theorem readListRESP_length : ∀ (fuel n : Nat) (input : List Char)
    (vs : List RValue) (rest : List Char),
    readListRESP fuel n input = .ok (vs, rest) → vs.length = n := by
  intro fuel
  induction fuel with
  | zero =>
    intro n input vs rest h
    cases n with
    | zero =>
      simp only [readListRESP] at h
      obtain ⟨rfl, -⟩ : ([] : List RValue) = vs ∧ input = rest := by simpa using h
      rfl
    | succ m => exact absurd h (by simp [readListRESP])
  | succ f ih =>
    intro n input vs rest h
    cases n with
    | zero =>
      simp only [readListRESP] at h
      obtain ⟨rfl, -⟩ : ([] : List RValue) = vs ∧ input = rest := by simpa using h
      rfl
    | succ m =>
      simp only [readListRESP] at h
      cases hR : readRESP f input with
      | error e => simp only [hR] at h; exact absurd h (by simp)
      | ok p =>
        obtain ⟨v, rest1⟩ := p
        simp only [hR] at h
        cases hRL : readListRESP f m rest1 with
        | error e => simp only [hRL] at h; exact absurd h (by simp)
        | ok q =>
          obtain ⟨vs1, rest2⟩ := q
          simp only [hRL] at h
          obtain ⟨rfl, -⟩ : v :: vs1 = vs ∧ rest2 = rest := by simpa using h
          simpa using ih m rest1 vs1 rest2 hRL

end RedisConnection
namespace RedisConnection

theorem writeRESP_foldl (q : List (List Char)) : ∀ acc : List Char,
    q.foldl (fun buf arg => buf ++ encodeBulk arg) acc
      = acc ++ (q.map encodeBulk).flatten := by
  induction q with
  | nil => intro acc; simp
  | cons a tl ih =>
    intro acc
    simp only [List.foldl_cons, List.map_cons, List.flatten_cons]
    rw [ih, List.append_assoc]

theorem WriteRESP_eq (q : List (List Char)) :
    WriteRESP q = '*' :: (natToDec q.length ++ '\r' :: '\n' :: (q.map encodeBulk).flatten) := by
  rw [WriteRESP, writeRESP_foldl]
  simp

theorem readRESP_encodeBulk {f : Nat} (arg rest : List Char)
    (hlen : arg.length ≤ INT64_MAX) :
    readRESP (f + 1) (encodeBulk arg ++ rest) = .ok (.str arg, rest) := by
  have hshape : encodeBulk arg ++ rest
      = '$' :: (natToDec arg.length ++ '\r' :: '\n' :: (arg ++ '\r' :: '\n' :: rest)) := by
    simp [encodeBulk]
  rw [hshape]
  simp only [readRESP, ↓reduceIte]
  simp only [readLine_complete (natToDec arg.length) '\n' (arg ++ '\r' :: '\n' :: rest)
    (cr_not_mem_natToDec _)]
  simp only [parseIntRESP_natToDec hlen]
  have hneg : ¬((arg.length : Int) < 0) := by omega
  simp only [if_neg hneg]
  simp only [Int.toNat_natCast]
  simp only [readN_complete arg ('\r' :: '\n' :: rest)]
  rfl

theorem readList_encode : ∀ (q : List (List Char)) (fuel : Nat) (rest : List Char),
    (∀ a ∈ q, a.length ≤ INT64_MAX) → q.length + 1 ≤ fuel →
    readListRESP fuel q.length ((q.map encodeBulk).flatten ++ rest)
      = .ok (q.map RValue.str, rest) := by
  intro q
  induction q with
  | nil =>
    intro fuel rest _ _
    simp only [List.map_nil, List.flatten_nil, List.nil_append, List.length_nil]
    cases fuel <;> rfl
  | cons a tl ih =>
    intro fuel rest hall hfuel
    obtain ⟨f2, rfl⟩ : ∃ f2, fuel = f2 + 1 + 1 := ⟨fuel - 2, by simp at hfuel; omega⟩
    simp only [List.map_cons, List.flatten_cons, List.length_cons, List.append_assoc]
    simp only [readListRESP]
    simp only [readRESP_encodeBulk a ((tl.map encodeBulk).flatten ++ rest)
      (hall a (List.mem_cons_self a tl))]
    simp only [ih (f2 + 1) rest (fun x hx => hall x (List.mem_cons_of_mem a hx))
      (by simp at hfuel; omega)]

theorem encodeBulk_length_pos (a : List Char) : 1 ≤ (encodeBulk a).length := by
  simp [encodeBulk]

theorem flatten_encode_length (q : List (List Char)) :
    q.length ≤ ((q.map encodeBulk).flatten).length := by
  induction q with
  | nil => simp
  | cons a tl ih =>
    simp only [List.map_cons, List.flatten_cons, List.length_append, List.length_cons]
    have := encodeBulk_length_pos a
    omega

theorem writeRESP_length_lb (q : List (List Char)) (rest : List Char) :
    q.length + 1 ≤ (WriteRESP q ++ rest).length := by
  rw [WriteRESP_eq]
  simp only [List.cons_append, List.length_cons, List.length_append]
  have := flatten_encode_length q
  omega

end RedisConnection
namespace RedisConnection

theorem readListRESP_zero (fuel : Nat) (input : List Char) :
    readListRESP fuel 0 input = .ok ([], input) := by
  cases fuel <;> rfl

theorem readLine_neg_line (m : Nat) (rest : List Char) :
    readLine ('-' :: (natToDec m ++ '\r' :: '\n' :: rest)) = .ok ('-' :: natToDec m, rest) := by
  have hsh : '-' :: (natToDec m ++ '\r' :: '\n' :: rest)
      = ('-' :: natToDec m) ++ '\r' :: '\n' :: rest := rfl
  rw [hsh]
  refine readLine_complete _ '\n' _ ?_
  intro hmem
  rcases List.mem_cons.mp hmem with h | h
  · exact absurd h (by decide)
  · exact cr_not_mem_natToDec m h

theorem ReadRESP_bulk_trailing (payload : List Char) (b1 b2 : Char) (rest : List Char)
    (hlen : payload.length ≤ INT64_MAX) :
    ReadRESP ('$' :: natToDec payload.length ++ '\r' :: '\n' :: payload ++ b1 :: b2 :: rest)
      = .ok (.str payload, rest) := by
  have hshape : '$' :: natToDec payload.length ++ '\r' :: '\n' :: payload ++ b1 :: b2 :: rest
      = '$' :: (natToDec payload.length ++ '\r' :: '\n' :: (payload ++ b1 :: b2 :: rest)) := by
    simp
  rw [hshape, ReadRESP]
  simp only [readRESP]
  simp only [readLine_complete (natToDec payload.length) '\n' (payload ++ b1 :: b2 :: rest)
    (cr_not_mem_natToDec _)]
  simp only [parseIntRESP_natToDec hlen]
  have hneg : ¬((payload.length : Int) < 0) := by omega
  simp only [if_neg hneg, Int.toNat_natCast]
  simp only [readN_complete payload (b1 :: b2 :: rest)]
  rfl

theorem readRESP_write_aux (query : List (List Char)) (rest : List Char)
    (hq : query.length ≤ INT64_MAX) (hargs : ∀ arg ∈ query, arg.length ≤ INT64_MAX)
    (f : Nat) (hf : query.length + 1 ≤ f) :
    readRESP (f + 1) ('*' :: (natToDec query.length ++ '\r' :: '\n'
      :: ((query.map encodeBulk).flatten ++ rest)))
      = .ok (.arr (query.map RValue.str), rest) := by
  simp only [readRESP]
  simp only [readLine_complete (natToDec query.length) '\n'
    ((query.map encodeBulk).flatten ++ rest) (cr_not_mem_natToDec _)]
  simp only [parseIntRESP_natToDec hq, Int.toNat_natCast]
  simp only [readList_encode query f rest hargs hf]
  rfl

end RedisConnection
namespace RedisConnection

/-- Claim C1: encoding any query (arbitrary byte contents, including NUL and
CRLF inside payloads) with `WriteRESP` and decoding the bytes with `ReadRESP`
yields an array whose elements are exactly the original byte strings in
order, consuming exactly the encoded bytes.  (The length bounds reflect the
`intmax_t` range of the length parser; they hold for any representable
query.) -/
theorem claim_C1_roundtrip (query : List (List Char)) (rest : List Char)
    (hq : query.length ≤ INT64_MAX) (hargs : ∀ arg ∈ query, arg.length ≤ INT64_MAX) :
    ReadRESP (WriteRESP query ++ rest)
      = .ok (.arr (query.map RValue.str), rest) := by
  have hshape : WriteRESP query ++ rest
      = '*' :: (natToDec query.length ++ '\r' :: '\n'
        :: ((query.map encodeBulk).flatten ++ rest)) := by
    rw [WriteRESP_eq]
    simp
  have hlb := writeRESP_length_lb query rest
  rw [hshape] at hlb
  rw [ReadRESP, hshape]
  exact readRESP_write_aux query rest hq hargs _ hlb

theorem claim_C1_roundtrip_witness :
    ReadRESP (WriteRESP [['a', '\r', '\n', '\x00', 'b'], []] ++ [])
      = .ok (.arr [.str ['a', '\r', '\n', '\x00', 'b'], .str []], []) :=
  claim_C1_roundtrip [['a', '\r', '\n', '\x00', 'b'], []] [] (by decide) (by decide)

/-- Claim C2, counterexample: the claim that a line read succeeds only when
the terminating two bytes are exactly `'\r'` followed by `'\n'` is false:
`readLine` accepts `'a' '\r' 'x'`, whose terminator is `'\r' 'x'`. -/
theorem claim_C2_counterexample :
    readLine ['a', '\r', 'x'] = .ok (['a'], ([] : List Char)) ∧
    ['a', '\r', 'x'] ≠ ['a'] ++ '\r' :: '\n' :: ([] : List Char) :=
  ⟨rfl, by decide⟩

/-- Claim C2, amended: `ReadLine` accepts a line exactly when the line bytes
contain no `'\r'` and are followed by `'\r'` plus one arbitrary byte, which
is consumed without being checked to be `'\n'`; likewise the two bytes after
a bulk-string payload are consumed without validation. -/
theorem claim_C2_amended :
    (∀ (input line rest : List Char), readLine input = .ok (line, rest) ↔
      ('\r' ∉ line ∧ ∃ b, input = line ++ '\r' :: b :: rest)) ∧
    (∀ (payload : List Char) (b1 b2 : Char) (rest : List Char),
      payload.length ≤ INT64_MAX →
      ReadRESP ('$' :: natToDec payload.length ++ '\r' :: '\n' :: payload ++ b1 :: b2 :: rest)
        = .ok (.str payload, rest)) := by
  constructor
  · intro input line rest
    constructor
    · exact readLine_sound
    · rintro ⟨hnr, b, rfl⟩
      exact readLine_complete line b rest hnr
  · intro payload b1 b2 rest hlen
    exact ReadRESP_bulk_trailing payload b1 b2 rest hlen

theorem claim_C2_amended_witness :
    readLine ['a', '\r', 'q'] = .ok (['a'], ([] : List Char)) ∧
    ReadRESP ['$', '1', '\r', '\n', 'a', 'X', 'Y'] = .ok (.str ['a'], []) := by
  constructor
  · exact (claim_C2_amended.1 ['a', '\r', 'q'] ['a'] []).mpr ⟨by decide, 'q', rfl⟩
  · exact claim_C2_amended.2 ['a'] 'X' 'Y' [] (by decide)

/-- Claim C3: for a query of N arguments, `WriteRESP` emits exactly
`*N\r\n` followed by, for each argument of length L, `$L\r\n`, the L
argument bytes, and `\r\n`, in argument order, with no other bytes. -/
theorem claim_C3_writeRESP_bytes (query : List (List Char)) :
    WriteRESP query = '*' :: natToDec query.length ++ ['\r', '\n']
      ++ (query.map (fun arg =>
          '$' :: natToDec arg.length ++ ['\r', '\n'] ++ arg ++ ['\r', '\n'])).flatten := by
  rw [WriteRESP_eq]
  have he : encodeBulk = fun arg : List Char =>
      '$' :: natToDec arg.length ++ ['\r', '\n'] ++ arg ++ ['\r', '\n'] := by
    funext arg
    simp [encodeBulk]
  rw [he]
  simp

/-- Claim C4: a bulk-string reply with negative declared length (in
particular `$-1\r\n`) decodes to the null value consuming no payload bytes;
with non-negative declared length L, exactly the L payload bytes plus the
two-byte trailing terminator are consumed and the payload is returned as a
string. -/
theorem claim_C4_bulk_decode :
    (∀ (m : Nat) (rest : List Char), 0 < m → m ≤ INT64_MAX + 1 →
      ReadRESP ('$' :: '-' :: natToDec m ++ '\r' :: '\n' :: rest) = .ok (.null, rest)) ∧
    (∀ (payload rest : List Char), payload.length ≤ INT64_MAX →
      ReadRESP ('$' :: natToDec payload.length ++ '\r' :: '\n' :: payload ++ '\r' :: '\n' :: rest)
        = .ok (.str payload, rest)) := by
  constructor
  · intro m rest hm hm2
    have hshape : '$' :: '-' :: natToDec m ++ '\r' :: '\n' :: rest
        = '$' :: ('-' :: (natToDec m ++ '\r' :: '\n' :: rest)) := by simp
    rw [hshape, ReadRESP]
    simp only [readRESP]
    simp only [readLine_neg_line m rest]
    simp only [parseIntRESP_neg_natToDec hm2]
    have hneg : (-(m : Int)) < 0 := by omega
    simp only [if_pos hneg]
    rfl
  · intro payload rest hlen
    exact ReadRESP_bulk_trailing payload '\r' '\n' rest hlen

theorem claim_C4_bulk_decode_witness :
    ReadRESP ['$', '-', '1', '\r', '\n', 'Z'] = .ok (.null, ['Z']) ∧
    ReadRESP ['$', '1', '\r', '\n', 'q', '\r', '\n'] = .ok (.str ['q'], []) :=
  ⟨claim_C4_bulk_decode.1 1 ['Z'] (by decide) (by decide),
   claim_C4_bulk_decode.2 ['q'] [] (by decide)⟩

/-- Claim C5: an array reply with negative declared count (in particular
`*-1\r\n`) decodes to an empty array; with non-negative declared count N,
exactly N values are decoded recursively and returned as an array in
order. -/
theorem claim_C5_array_decode :
    (∀ (m : Nat) (rest : List Char), 0 < m → m ≤ INT64_MAX + 1 →
      ReadRESP ('*' :: '-' :: natToDec m ++ '\r' :: '\n' :: rest) = .ok (.arr [], rest)) ∧
    (∀ (N : Nat) (body : List Char) (vs : List RValue) (rest : List Char),
      N ≤ INT64_MAX → ReadRESPList N body = .ok (vs, rest) →
      ReadRESP ('*' :: natToDec N ++ '\r' :: '\n' :: body) = .ok (.arr vs, rest) ∧
      vs.length = N) := by
  constructor
  · intro m rest hm hm2
    have hshape : '*' :: '-' :: natToDec m ++ '\r' :: '\n' :: rest
        = '*' :: ('-' :: (natToDec m ++ '\r' :: '\n' :: rest)) := by simp
    rw [hshape, ReadRESP]
    simp only [readRESP]
    simp only [readLine_neg_line m rest]
    simp only [parseIntRESP_neg_natToDec hm2]
    have ht : (-(m : Int)).toNat = 0 := by omega
    simp only [ht, readListRESP_zero]
    rfl
  · intro N body vs rest hN hdec
    have hshape : '*' :: natToDec N ++ '\r' :: '\n' :: body
        = '*' :: (natToDec N ++ '\r' :: '\n' :: body) := by simp
    rw [hshape, ReadRESP]
    simp only [readRESP]
    simp only [readLine_complete (natToDec N) '\n' body (cr_not_mem_natToDec _)]
    simp only [parseIntRESP_natToDec hN, Int.toNat_natCast]
    have hbig : body.length + 1 < ('*' :: (natToDec N ++ '\r' :: '\n' :: body)).length := by
      simp only [List.length_cons, List.length_append]
      omega
    obtain ⟨hstab, -⟩ := @readListRESP_fuel_sufficient _ N _ hbig
    constructor
    · simp only [hstab, hdec]
      rfl
    · rw [ReadRESPList] at hdec
      exact readListRESP_length _ _ _ _ _ hdec

theorem claim_C5_array_decode_witness :
    ReadRESP ['*', '-', '1', '\r', '\n'] = .ok (.arr [], []) ∧
    (ReadRESP ['*', '1', '\r', '\n', ':', '7', '\r', '\n'] = .ok (.arr [.num 7], []) ∧
      ([RValue.num 7] : List RValue).length = 1) :=
  ⟨claim_C5_array_decode.1 1 [] (by decide) (by decide),
   claim_C5_array_decode.2 1 [':', '7', '\r', '\n'] [.num 7] [] (by decide) rfl⟩

/-- Claim C6: an input beginning with `'-'` decodes without raising: the
result is an ordinary error-value carrying exactly the message bytes of the
line after the `'-'`, and `GetMessage` yields that message. -/
theorem claim_C6_error_value (msg : List Char) (rest : List Char) (hmsg : '\r' ∉ msg) :
    ReadRESP ('-' :: msg ++ '\r' :: '\n' :: rest) = .ok (.err ⟨msg⟩, rest) ∧
    RedisError.GetMessage ⟨msg⟩ = msg := by
  constructor
  · have hshape : '-' :: msg ++ '\r' :: '\n' :: rest
        = '-' :: (msg ++ '\r' :: '\n' :: rest) := by simp
    rw [hshape, ReadRESP]
    simp only [readRESP]
    simp only [readLine_complete msg '\n' rest hmsg]
    rfl
  · rfl

theorem claim_C6_error_value_witness :
    ReadRESP ['-', 'E', 'R', 'R', '\r', '\n'] = .ok (.err ⟨['E', 'R', 'R']⟩, []) ∧
    RedisError.GetMessage ⟨['E', 'R', 'R']⟩ = ['E', 'R', 'R'] :=
  claim_C6_error_value ['E', 'R', 'R'] [] (by decide)

/-- Claim C7, counterexample: the claim that the `what()` message is the
single offending byte for every non-type first byte is false at `'\x00'`:
decoding fails with a bad-type error carrying `'\x00'`, but `what()` on the
`m_What` array `{0, 0}` is the empty NUL-terminated string, not the one-byte
message. -/
theorem claim_C7_counterexample :
    ReadRESP ['\x00', 'y'] = .error (.badType '\x00') ∧
    (BadRedisType.ofChar '\x00').what ≠ ['\x00'] :=
  ⟨rfl, by decide⟩

/-- Claim C7, amended: an input whose first byte is none of `+ - : $ *`
fails with a bad-type error carrying exactly that byte; the exception's
`what()` C string is that single byte when the byte is not `'\x00'`, and the
empty string when it is `'\x00'` (NUL truncation of `m_What{type, 0}`). -/
theorem claim_C7_amended (c : Char) (rest : List Char)
    (h : c ∉ ['+', '-', ':', '$', '*']) :
    ReadRESP (c :: rest) = .error (.badType c) ∧
    (BadRedisType.ofChar c).what = if c = '\x00' then [] else [c] := by
  have h1 : c ≠ '+' := fun hh => h (by simp [hh])
  have h2 : c ≠ '-' := fun hh => h (by simp [hh])
  have h3 : c ≠ ':' := fun hh => h (by simp [hh])
  have h4 : c ≠ '$' := fun hh => h (by simp [hh])
  have h5 : c ≠ '*' := fun hh => h (by simp [hh])
  constructor
  · rw [ReadRESP]
    simp only [readRESP, if_neg h1, if_neg h2, if_neg h3, if_neg h4, if_neg h5]
  · by_cases hc : c = '\x00'
    · subst hc
      rfl
    · simp only [if_neg hc, BadRedisType.what, BadRedisType.ofChar, cString,
        List.takeWhile_cons]
      simp [hc]

theorem claim_C7_amended_witness :
    ReadRESP ['x', 'y'] = .error (.badType 'x') ∧
    (BadRedisType.ofChar 'x').what = ['x'] :=
  claim_C7_amended 'x' ['y'] (by decide)

/-- Claim C8, counterexample: the claim that the `what()` message is exactly
the raw line bytes is false for a line with an interior NUL: the header
`:a\x00` (then CRLF) fails with a bad-integer error storing the two raw
bytes, but `what()` reads `m_What` as a NUL-terminated C string and
truncates to `a`. -/
theorem claim_C8_counterexample :
    ReadRESP [':', 'a', '\x00', '\r', '\n'] = .error (.badInt ['a', '\x00']) ∧
    (BadRedisInt.ofBytes ['a', '\x00']).what ≠ ['a', '\x00'] :=
  ⟨rfl, by decide⟩

/-- Claim C8, amended: a `:`, `$` or `*` header whose line is not a
parseable signed integer (an optional `'+'` or `'-'` sign then decimal
digits, within the `intmax_t` range) fails with a bad-integer error storing
exactly the raw line bytes; the exception's `what()` message is exactly
those bytes whenever the line contains no `'\x00'` (an interior NUL
truncates the `what()` C string). -/
theorem claim_C8_amended (t : Char) (line : List Char) (rest : List Char)
    (ht : t = ':' ∨ t = '$' ∨ t = '*') (hline : '\r' ∉ line)
    (hparse : parseIntRESP line = none) :
    ReadRESP (t :: line ++ '\r' :: '\n' :: rest) = .error (.badInt line) ∧
    ('\x00' ∉ line → (BadRedisInt.ofBytes line).what = line) := by
  refine ⟨?_, fun hnul => cString_eq_self hnul⟩
  have hshape : t :: line ++ '\r' :: '\n' :: rest
      = t :: (line ++ '\r' :: '\n' :: rest) := by simp
  rw [hshape, ReadRESP]
  rcases ht with rfl | rfl | rfl <;>
  · simp only [readRESP]
    simp only [readLine_complete line '\n' rest hline, hparse]
    rfl

theorem claim_C8_amended_witness :
    ReadRESP [':', 'q', '\r', '\n'] = .error (.badInt ['q']) ∧
    (BadRedisInt.ofBytes ['q']).what = ['q'] :=
  ⟨(claim_C8_amended ':' ['q'] [] (Or.inl rfl) (by decide) (by decide)).1,
   (claim_C8_amended ':' ['q'] [] (Or.inl rfl) (by decide) (by decide)).2 (by decide)⟩

/-- Claim C9: with a null stream handle, `ReadOne` and `WriteOne` fail
immediately with the Disconnected error, performing no I/O and leaving the
connection state (flags and queues) unchanged. -/
theorem claim_C9_disconnected (st : ConnectionState) (query : List (List Char))
    (h : st.stream = none) :
    ReadOne st = (.error .disconnected, st) ∧
    WriteOne st query = (.error .disconnected, st) := by
  constructor
  · simp only [ReadOne, h]
  · simp only [WriteOne, h]

theorem claim_C9_disconnected_witness :
    ReadOne ⟨none, true, false, 0, 1, 2, 3⟩
      = (.error .disconnected, ⟨none, true, false, 0, 1, 2, 3⟩) ∧
    WriteOne ⟨none, true, false, 0, 1, 2, 3⟩ [['P', 'I', 'N', 'G']]
      = (.error .disconnected, ⟨none, true, false, 0, 1, 2, 3⟩) :=
  claim_C9_disconnected ⟨none, true, false, 0, 1, 2, 3⟩ [['P', 'I', 'N', 'G']] rfl

/-- Claim C10: `ReadRESP` is total on every finite input: any recursion-depth
bound exceeding the input length yields the same result, and the
fuel-exhaustion outcome never occurs, because every step consumes at least
one byte of the remaining input. -/
theorem claim_C10_total (fuel : Nat) (input : List Char) (h : input.length < fuel) :
    readRESP fuel input = ReadRESP input ∧ readRESP fuel input ≠ .error .fuel :=
  readRESP_fuel_sufficient h

theorem claim_C10_total_witness :
    readRESP 5 ['+', '\r', '\n'] = ReadRESP ['+', '\r', '\n'] ∧
    readRESP 5 ['+', '\r', '\n'] ≠ .error .fuel :=
  claim_C10_total 5 ['+', '\r', '\n'] (by decide)

end RedisConnection
